import Mathlib

/-!
Verification of the `funcfmt` template-expansion library (`src/lib.rs`).

The library compiles a template string plus a mapping of named callbacks into
a sequence of "format pieces" (`to_format_pieces`), and renders such a
sequence against a data value (`render`).  Templates use `{key}` placeholders,
with `{{` and `}}` as escapes for literal braces.

The embedding below models the template as a list of Unicode scalar values
(`List Char`, matching `tmpl.chars()` in the source), the callback mapping as
its key-lookup function (matching `FxHashMap::get`), and
`usize` arithmetic as `Nat` together with explicit checked operations bounded
by `2 ^ 64 - 1`, mirroring `checked_add` / `checked_sub` / `checked_mul` in
the source.
-/

namespace funcfmt

/-- The error enum from `src/lib.rs`.  `Write` models `Error::Write(fmt::Error)`;
`std::fmt::Error` carries no information, so the payload is dropped. -/
inductive Error where
  | UnknownKey (key : String)
  | NoData (key : String)
  | ImbalancedBrackets
  | Overflow
  | Write
deriving DecidableEq

/-- `pub type FormatterCallback<T> = fn(&T) -> Option<String>;` -/
def FormatterCallback (T : Type) := T → Option String

/-- `pub type FormatMap<T> = FxHashMap<String, FormatterCallback<T>>;`
modelled by its lookup function (`self.get`). -/
def FormatMap (T : Type) := String → Option (FormatterCallback T)

/-- `enum FormatPiece<T> { Char(char), Formatter(Formatter<T>) }`, with the
`Formatter { key, cb }` struct inlined into the constructor. -/
inductive FormatPiece (T : Type) where
  | Char (c : Char)
  | Formatter (key : String) (cb : FormatterCallback T)

/-- `pub type FormatPieces<T> = Vec<FormatPiece<T>>;` -/
def FormatPieces (T : Type) := List (FormatPiece T)

/-- Largest value of a 64-bit `usize`. -/
def USIZE_MAX : Nat := 2 ^ 64 - 1

/-- `usize::checked_add`. -/
def checkedAdd (a b : Nat) : Option Nat :=
  if a + b ≤ USIZE_MAX then some (a + b) else none

/-- `usize::checked_sub`. -/
def checkedSub (a b : Nat) : Option Nat :=
  if b ≤ a then some (a - b) else none

/-- `usize::checked_mul`. -/
def checkedMul (a b : Nat) : Option Nat :=
  if a * b ≤ USIZE_MAX then some (a * b) else none

/-- The scanning loop of `ToFormatPieces::to_format_pieces` (src/lib.rs lines
119-147).  `v` is `tmpl_vec` (the template as a vector of chars), the first
list argument is the remaining part of the enumerated iterator, `idx` the
index of its first element, `s` is `start_word_idx` (`0` meaning "no
placeholder open"), and `out` the pieces pushed so far.  Each arm below
corresponds, in order, to one arm of the `match (*cur, start_word_idx)` in
the source; the `'}' :: '}' :: rest` arm is the `chars.next_if` lookahead. -/
def fpGo {T : Type} (m : FormatMap T) (v : List Char) :
    List Char → Nat → Nat → List (FormatPiece T) → Except Error (List (FormatPiece T))
  | [], _, _, out => .ok out
  | '{' :: rest, idx, 0, out =>
      match checkedAdd idx 1 with
      | some s => fpGo m v rest (idx + 1) s out
      | none => .error .Overflow
  | '{' :: rest, idx, s, out =>
      match checkedSub idx s with
      | some 0 => fpGo m v rest (idx + 1) 0 (out ++ [.Char '{'])
      | some _ => .error .ImbalancedBrackets
      | none => .error .Overflow
  | '}' :: '}' :: rest, idx, 0, out => fpGo m v rest (idx + 2) 0 (out ++ [.Char '}'])
  | '}' :: _, _, 0, _ => .error .ImbalancedBrackets
  | '}' :: rest, idx, s, out =>
      match m (String.mk ((v.drop s).take (idx - s))) with
      | some f =>
          fpGo m v rest (idx + 1) 0 (out ++ [.Formatter (String.mk ((v.drop s).take (idx - s))) f])
      | none => .error (.UnknownKey (String.mk ((v.drop s).take (idx - s))))
  | c :: rest, idx, 0, out => fpGo m v rest (idx + 1) 0 (out ++ [.Char c])
  | _ :: rest, idx, s, out => fpGo m v rest (idx + 1) s out

/-- `ToFormatPieces::to_format_pieces for FormatMap<T>` (src/lib.rs line 109).
The `with_capacity` pre-sizing only affects allocation, not the result. -/
def toFormatPieces {T : Type} (m : FormatMap T) (tmpl : List Char) :
    Except Error (List (FormatPiece T)) :=
  fpGo m tmpl tmpl 0 0 []

/-- The loop of `Render::render` (src/lib.rs lines 181-190).  Appending a
`String` via `write!` to a `String` sink cannot fail, so the `Error::Write`
path never fires in the model. -/
def renderGo {T : Type} (d : T) : List (FormatPiece T) → String → Except Error String
  | [], out => .ok out
  | .Char c :: rest, out => renderGo d rest (out.push c)
  | .Formatter key cb :: rest, out =>
      match cb d with
      | some s => renderGo d rest (out ++ s)
      | none => .error (.NoData key)

/-- `Render::render for FormatPieces<T>` (src/lib.rs line 178), including the
checked capacity multiplication `self.len().checked_mul(4)`. -/
def render {T : Type} (ps : List (FormatPiece T)) (d : T) : Except Error String :=
  match checkedMul ps.length 4 with
  | some _ => renderGo d ps (r"")
  | none => .error .Overflow

/-! ### Specification-side vocabulary -/

/-- A character run free of both brace characters. -/
def NoBraces (l : List Char) : Prop := ∀ c ∈ l, c ≠ '{' ∧ c ≠ '}'

instance noBracesDecidable (l : List Char) : Decidable (NoBraces l) := by
  unfold NoBraces; infer_instance

/-- The characters a piece contributes to the rendered output for data `d`. -/
def pieceChars {T : Type} (d : T) : FormatPiece T → List Char
  | .Char c => [c]
  | .Formatter _ cb => ((cb d).getD (r"")).data

/-- In-order concatenation of the output of every piece. -/
def piecesOut {T : Type} (d : T) (ps : List (FormatPiece T)) : List Char :=
  (ps.map (pieceChars d)).flatten

/-- Every `Formatter` piece's callback produces a value on `d`. -/
def AllSome {T : Type} (d : T) (ps : List (FormatPiece T)) : Prop :=
  ∀ key cb, FormatPiece.Formatter key cb ∈ ps → (cb d).isSome = true

/-- A template made solely of doubled (escaped) brace characters: each block
character `b` (a `'{'` or `'}'`) appears as the pair `[b, b]`. -/
def escPairs (blocks : List Char) : List Char :=
  (blocks.map (fun b => [b, b])).flatten

/-- An idealized, index-free restatement of the same scanning loop, used as a
proof vehicle: the mode is `none` when no placeholder is open and
`some acc` when one is open with accumulated key characters `acc`.  It also
returns the final mode.  `scanGo_of_fpGo` proves it equivalent to `fpGo`. -/
def scanGo {T : Type} (m : FormatMap T) :
    List Char → Option (List Char) → Except Error (Option (List Char) × List (FormatPiece T))
  | [], mode => .ok (mode, [])
  | '{' :: rest, none => scanGo m rest (some [])
  | '{' :: rest, some [] => (scanGo m rest none).map (fun p => (p.1, .Char '{' :: p.2))
  | '{' :: _, some _ => .error .ImbalancedBrackets
  | '}' :: '}' :: rest, none => (scanGo m rest none).map (fun p => (p.1, .Char '}' :: p.2))
  | '}' :: _, none => .error .ImbalancedBrackets
  | '}' :: rest, some acc =>
      match m (String.mk acc) with
      | some f => (scanGo m rest none).map (fun p => (p.1, .Formatter (String.mk acc) f :: p.2))
      | none => .error (.UnknownKey (String.mk acc))
  | c :: rest, none => (scanGo m rest none).map (fun p => (p.1, .Char c :: p.2))
  | c :: rest, some acc => scanGo m rest (some (acc ++ [c]))

/-- How a single template segment gives rise to a single piece. -/
inductive Emits {T : Type} (m : FormatMap T) : List Char → FormatPiece T → Prop where
  | char (c : Char) : c ≠ '{' → c ≠ '}' → Emits m [c] (.Char c)
  | escOpen : Emits m ['{', '{'] (.Char '{')
  | escClose : Emits m ['}', '}'] (.Char '}')
  | formatter (k : List Char) (f : FormatterCallback T) : NoBraces k →
      m (String.mk k) = some f → Emits m ('{' :: k ++ ['}']) (.Formatter (String.mk k) f)

/-- The shapes of template suffix on which the scanner, in closed mode, fails
right away (before emitting another piece). -/
def ImmediateErr {T : Type} (m : FormatMap T) (l : List Char) (e : Error) : Prop :=
  (e = .ImbalancedBrackets ∧ ∃ rest, l = '}' :: rest ∧ ∀ r, rest ≠ '}' :: r) ∨
  (e = .ImbalancedBrackets ∧ ∃ k rest, NoBraces k ∧ k ≠ [] ∧ l = '{' :: k ++ '{' :: rest) ∨
  (∃ k rest, NoBraces k ∧ l = '{' :: k ++ '}' :: rest ∧ e = .UnknownKey (String.mk k) ∧
     m (String.mk k) = none)

/-- The scanner mode corresponding to a `start_word_idx` value. -/
def modeOf (v : List Char) (idx s : Nat) : Option (List Char) :=
  if s = 0 then none else some ((v.drop s).take (idx - s))

def fooMap : FormatMap Nat :=
  fun k => if k = (r"foo") then some (fun n => some (toString n)) else none

def emptyKeyMap : FormatMap Nat :=
  fun k => if k = (r"") then some (fun _ => some (r"E")) else none

end funcfmt

namespace funcfmt

variable {T : Type} {m : FormatMap T}

theorem scanGo_cons_other {c : Char} (hc1 : c ≠ '{') (hc2 : c ≠ '}') (rest : List Char) :
    scanGo m (c :: rest) none = (scanGo m rest none).map (fun p => (p.1, .Char c :: p.2)) := by
  rw [scanGo.eq_def]
  split <;> simp_all

theorem scanGo_cons_other_open {c : Char} (hc1 : c ≠ '{') (hc2 : c ≠ '}') (rest acc : List Char) :
    scanGo m (c :: rest) (some acc) = scanGo m rest (some (acc ++ [c])) := by
  rw [scanGo.eq_def]
  split <;> simp_all

theorem scanGo_close_nopair {rest : List Char} (h : ∀ r, rest ≠ '}' :: r) :
    scanGo m ('}' :: rest) none = .error .ImbalancedBrackets := by
  rw [scanGo.eq_def]
  split <;> simp_all
  rename_i hc2 heq
  exact absurd heq.1.symm hc2

end funcfmt

namespace funcfmt

variable {T : Type} {m : FormatMap T}

theorem scanGo_accum : ∀ (k : List Char), NoBraces k → ∀ (tail acc : List Char),
    scanGo m (k ++ tail) (some acc) = scanGo m tail (some (acc ++ k)) := by
  intro k
  induction k with
  | nil => intro _ tail acc; simp
  | cons c k ih =>
      intro h tail acc
      obtain ⟨hc1, hc2⟩ := h c (by simp)
      rw [List.cons_append, scanGo_cons_other_open hc1 hc2,
        ih (fun x hx => h x (by simp [hx])) tail (acc ++ [c])]
      simp

theorem scanGo_noBraces : ∀ (l : List Char), NoBraces l →
    scanGo m l none = .ok (none, l.map .Char) := by
  intro l
  induction l with
  | nil => intro _; rfl
  | cons c l ih =>
      intro h
      obtain ⟨hc1, hc2⟩ := h c (by simp)
      rw [scanGo_cons_other hc1 hc2, ih (fun x hx => h x (by simp [hx]))]
      rfl

theorem scanGo_escPairs : ∀ (blocks : List Char), (∀ b ∈ blocks, b = '{' ∨ b = '}') →
    scanGo m (escPairs blocks) none = .ok (none, blocks.map .Char) := by
  intro blocks
  induction blocks with
  | nil => intro _; rfl
  | cons b blocks ih =>
      intro h
      have hrest := ih (fun x hx => h x (by simp [hx]))
      rcases h b (by simp) with hb | hb <;> subst hb <;>
        simp [escPairs, List.flatten] at hrest ⊢ <;>
        simp [scanGo, hrest, escPairs, Except.map]

theorem scanGo_append : ∀ (l₁ : List Char) (mode : Option (List Char)) (m₁ : Option (List Char))
    (ps₁ : List (FormatPiece T)) (l₂ : List Char),
    scanGo m l₁ mode = .ok (m₁, ps₁) →
    scanGo m (l₁ ++ l₂) mode = (scanGo m l₂ m₁).map (fun p => (p.1, ps₁ ++ p.2)) := by
  intro l₁ mode
  induction l₁, mode using scanGo.induct (m := m) with
  | case1 mode =>
      intro m₁ ps₁ l₂ h
      simp [scanGo] at h
      obtain ⟨rfl, rfl⟩ := h
      simp
      cases scanGo m l₂ mode <;> rfl
  | case2 rest ih =>
      intro m₁ ps₁ l₂ h
      simp [scanGo] at h ⊢
      exact ih m₁ ps₁ l₂ h
  | case3 rest ih =>
      intro m₁ ps₁ l₂ h
      simp [scanGo] at h ⊢
      cases hr : scanGo m rest none with
      | error e => rw [hr] at h; simp [Except.map] at h
      | ok p =>
          rw [hr] at h
          simp [Except.map] at h
          obtain ⟨rfl, rfl⟩ := h
          rw [ih p.1 p.2 l₂ (by rw [hr])]
          cases scanGo m l₂ p.1 <;> simp [Except.map]
  | case4 tail acc hacc =>
      intro m₁ ps₁ l₂ h
      obtain ⟨a, acc, rfl⟩ : ∃ a rest, acc = a :: rest := by
        cases acc with
        | nil => exact absurd rfl hacc
        | cons a r => exact ⟨a, r, rfl⟩
      simp [scanGo] at h
  | case5 rest ih =>
      intro m₁ ps₁ l₂ h
      simp [scanGo] at h ⊢
      cases hr : scanGo m rest none with
      | error e => rw [hr] at h; simp [Except.map] at h
      | ok p =>
          rw [hr] at h
          simp [Except.map] at h
          obtain ⟨rfl, rfl⟩ := h
          rw [ih p.1 p.2 l₂ (by rw [hr])]
          cases scanGo m l₂ p.1 <;> simp [Except.map]
  | case6 tail hne =>
      intro m₁ ps₁ l₂ h
      rw [scanGo_close_nopair hne] at h
      simp at h
  | case7 rest acc f hf ih =>
      intro m₁ ps₁ l₂ h
      simp [scanGo, hf] at h ⊢
      cases hr : scanGo m rest none with
      | error e => rw [hr] at h; simp [Except.map] at h
      | ok p =>
          rw [hr] at h
          simp [Except.map] at h
          obtain ⟨rfl, rfl⟩ := h
          rw [ih p.1 p.2 l₂ (by rw [hr])]
          cases scanGo m l₂ p.1 <;> simp [Except.map]
  | case8 rest acc hf =>
      intro m₁ ps₁ l₂ h
      simp [scanGo, hf] at h
  | case9 c rest hc1 hc2 hc3 ih =>
      intro m₁ ps₁ l₂ h
      rw [scanGo_cons_other (fun he => hc1 he) (fun he => hc3 he)] at h
      rw [List.cons_append, scanGo_cons_other (fun he => hc1 he) (fun he => hc3 he)]
      cases hr : scanGo m rest none with
      | error e => rw [hr] at h; simp [Except.map] at h
      | ok p =>
          rw [hr] at h
          simp [Except.map] at h
          obtain ⟨rfl, rfl⟩ := h
          rw [ih p.1 p.2 l₂ (by rw [hr])]
          cases scanGo m l₂ p.1 <;> simp [Except.map]
  | case10 c rest acc h1 hc1 hc2 ih =>
      intro m₁ ps₁ l₂ h
      rw [scanGo_cons_other_open (fun he => hc1 he) (fun he => hc2 he)] at h
      rw [List.cons_append, scanGo_cons_other_open (fun he => hc1 he) (fun he => hc2 he)]
      exact ih m₁ ps₁ l₂ h

end funcfmt

namespace funcfmt

variable {T : Type} {m : FormatMap T}

theorem scanGo_open_ok : ∀ (l acc : List Char) (md : Option (List Char))
    (ps : List (FormatPiece T)), scanGo m l (some acc) = .ok (md, ps) →
    (ps = [] ∧ md = some (acc ++ l) ∧ NoBraces l) ∨
    (∃ k rest f ps₂, NoBraces k ∧ l = k ++ '}' :: rest ∧ m (String.mk (acc ++ k)) = some f ∧
       ps = .Formatter (String.mk (acc ++ k)) f :: ps₂ ∧ scanGo m rest none = .ok (md, ps₂)) ∨
    (acc = [] ∧ ∃ rest ps₂, l = '{' :: rest ∧ ps = .Char '{' :: ps₂ ∧
       scanGo m rest none = .ok (md, ps₂)) := by
  intro l
  induction l with
  | nil =>
      intro acc md ps h
      simp [scanGo] at h
      obtain ⟨rfl, rfl⟩ := h
      exact Or.inl ⟨rfl, by simp, by intro c hc; simp at hc⟩
  | cons c l ih =>
      intro acc md ps h
      by_cases hc1 : c = '{'
      · subst hc1
        cases acc with
        | nil =>
            simp [scanGo] at h
            cases hr : scanGo m l none with
            | error e => rw [hr] at h; simp [Except.map] at h
            | ok p =>
                rw [hr] at h; simp [Except.map] at h
                obtain ⟨rfl, rfl⟩ := h
                exact Or.inr (Or.inr ⟨rfl, l, p.2, rfl, rfl, by rw [hr]⟩)
        | cons a acc' => simp [scanGo] at h
      · by_cases hc2 : c = '}'
        · subst hc2
          rw [show ('}' :: l) = ('}' :: l) from rfl] at h
          cases hf : m (String.mk acc) with
          | none => simp [scanGo, hf] at h
          | some f =>
              simp [scanGo, hf] at h
              cases hr : scanGo m l none with
              | error e => rw [hr] at h; simp [Except.map] at h
              | ok p =>
                  rw [hr] at h; simp [Except.map] at h
                  obtain ⟨rfl, rfl⟩ := h
                  refine Or.inr (Or.inl ⟨[], l, f, p.2, ?_, by simp, by simpa using hf,
                    by simp, by rw [hr]⟩)
                  intro x hx; simp at hx
        · rw [scanGo_cons_other_open hc1 hc2] at h
          rcases ih (acc ++ [c]) md ps h with ⟨rfl, hmd, hnb⟩ | ⟨k, rest, f, ps₂, hk, rfl, hf, rfl, hr⟩ | ⟨habs, _⟩
          · refine Or.inl ⟨rfl, by simpa [List.append_assoc] using hmd, ?_⟩
            intro x hx
            rcases List.mem_cons.mp hx with rfl | hx
            · exact ⟨hc1, hc2⟩
            · exact hnb x hx
          · refine Or.inr (Or.inl ⟨c :: k, rest, f, ps₂, ?_, by simp, ?_, ?_, hr⟩)
            · intro x hx
              rcases List.mem_cons.mp hx with rfl | hx
              · exact ⟨hc1, hc2⟩
              · exact hk x hx
            · simpa [List.append_assoc] using hf
            · simp [List.append_assoc]
          · simp at habs

theorem scanGo_ok_cons {l : List Char} {md : Option (List Char)} {p : FormatPiece T}
    {ps : List (FormatPiece T)} (h : scanGo m l none = .ok (md, p :: ps)) :
    ∃ seg l₂, l = seg ++ l₂ ∧ Emits m seg p ∧ scanGo m l₂ none = .ok (md, ps) := by
  cases l with
  | nil => simp [scanGo] at h
  | cons c rest =>
      by_cases hc1 : c = '{'
      · subst hc1
        simp [scanGo] at h
        rcases scanGo_open_ok rest [] md (p :: ps) h with
          ⟨habs, _⟩ | ⟨k, rest₂, f, ps₂, hk, rfl, hf, heq, hr⟩ | ⟨_, rest₂, ps₂, rfl, heq, hr⟩
        · simp at habs
        · obtain ⟨rfl, rfl⟩ : p = .Formatter (String.mk k) f ∧ ps₂ = ps := by
            have h1 := heq
            simp at h1
            exact ⟨h1.1, h1.2.symm⟩
          refine ⟨'{' :: (k ++ ['}']), rest₂, by simp, ?_, hr⟩
          have he := Emits.formatter (m := m) k f hk (by simpa using hf)
          simpa using he
        · obtain ⟨rfl, rfl⟩ : p = .Char '{' ∧ ps₂ = ps := by
            have h1 := heq
            simp at h1
            exact ⟨h1.1, h1.2.symm⟩
          exact ⟨['{', '{'], rest₂, by simp, Emits.escOpen, hr⟩
      · by_cases hc2 : c = '}'
        · subst hc2
          cases rest with
          | nil => rw [scanGo_close_nopair (by intro r h'; simp at h')] at h; simp at h
          | cons c2 rest₂ =>
              by_cases hc2' : c2 = '}'
              · subst hc2'
                simp [scanGo] at h
                cases hr : scanGo m rest₂ none with
                | error e => rw [hr] at h; simp [Except.map] at h
                | ok q =>
                    rw [hr] at h; simp [Except.map] at h
                    obtain ⟨rfl, hq⟩ := h
                    obtain ⟨rfl, rfl⟩ : p = .Char '}' ∧ q.2 = ps := ⟨hq.1.symm, hq.2⟩
                    exact ⟨['}', '}'], rest₂, by simp, Emits.escClose, by rw [hr]⟩
              · rw [scanGo_close_nopair
                  (by intro r h'; injection h' with h1 _; exact hc2' h1)] at h
                simp at h
        · rw [scanGo_cons_other hc1 hc2] at h
          cases hr : scanGo m rest none with
          | error e => rw [hr] at h; simp [Except.map] at h
          | ok q =>
              rw [hr] at h; simp [Except.map] at h
              obtain ⟨rfl, hq⟩ := h
              obtain ⟨rfl, rfl⟩ : p = .Char c ∧ q.2 = ps := ⟨hq.1.symm, hq.2⟩
              exact ⟨[c], rest, by simp, Emits.char c hc1 hc2, by rw [hr]⟩

end funcfmt

namespace funcfmt

variable {T : Type} {m : FormatMap T}

theorem scanGo_ok_nil_inv {l : List Char} {md : Option (List Char)}
    (h : scanGo m l none = .ok (md, ([] : List (FormatPiece T)))) :
    (md = none ∧ l = []) ∨ ∃ k, NoBraces k ∧ md = some k ∧ l = '{' :: k := by
  cases l with
  | nil =>
      simp [scanGo] at h
      exact Or.inl ⟨h.symm, rfl⟩
  | cons c rest =>
      by_cases hc1 : c = '{'
      · subst hc1
        simp [scanGo] at h
        rcases scanGo_open_ok rest [] md [] h with
          ⟨_, hmd, hnb⟩ | ⟨k, rest₂, f, ps₂, _, _, _, habs, _⟩ | ⟨_, rest₂, ps₂, _, habs, _⟩
        · exact Or.inr ⟨rest, hnb, by simpa using hmd, rfl⟩
        · simp at habs
        · simp at habs
      · by_cases hc2 : c = '}'
        · subst hc2
          cases rest with
          | nil => rw [scanGo_close_nopair (by intro r h'; simp at h')] at h; simp at h
          | cons c2 rest₂ =>
              by_cases hc2' : c2 = '}'
              · subst hc2'
                simp [scanGo] at h
                cases hr : scanGo m rest₂ none with
                | error e => rw [hr] at h; simp [Except.map] at h
                | ok q => rw [hr] at h; simp [Except.map] at h
              · rw [scanGo_close_nopair
                  (by intro r h'; injection h' with h1 _; exact hc2' h1)] at h
                simp at h
        · rw [scanGo_cons_other hc1 hc2] at h
          cases hr : scanGo m rest none with
          | error e => rw [hr] at h; simp [Except.map] at h
          | ok q => rw [hr] at h; simp [Except.map] at h

theorem scanGo_ok_decomp : ∀ (ps : List (FormatPiece T)) (l : List Char)
    (md : Option (List Char)), scanGo m l none = .ok (md, ps) →
    ∃ segs tail, l = segs.flatten ++ tail ∧ List.Forall₂ (Emits m) segs ps ∧
      ((md = none ∧ tail = []) ∨ ∃ k, NoBraces k ∧ md = some k ∧ tail = '{' :: k) := by
  intro ps
  induction ps with
  | nil =>
      intro l md h
      rcases scanGo_ok_nil_inv h with ⟨rfl, rfl⟩ | ⟨k, hk, rfl, rfl⟩
      · exact ⟨[], [], by simp, List.Forall₂.nil, Or.inl ⟨rfl, rfl⟩⟩
      · exact ⟨[], '{' :: k, by simp, List.Forall₂.nil, Or.inr ⟨k, hk, rfl, rfl⟩⟩
  | cons p ps ih =>
      intro l md h
      obtain ⟨seg, l₂, rfl, hem, h₂⟩ := scanGo_ok_cons h
      obtain ⟨segs, tail, rfl, hall, hmd⟩ := ih l₂ md h₂
      exact ⟨seg :: segs, tail, by simp, List.Forall₂.cons hem hall, hmd⟩

theorem Emits.ne_nil {seg : List Char} {p : FormatPiece T} (h : Emits m seg p) : seg ≠ [] := by
  cases h <;> simp

theorem length_le_flatten : ∀ (segs : List (List Char)), (∀ s ∈ segs, s ≠ []) →
    segs.length ≤ segs.flatten.length := by
  intro segs
  induction segs with
  | nil => simp
  | cons s segs ih =>
      intro h
      have hs : 1 ≤ s.length := by
        have := h s (by simp)
        cases s with
        | nil => exact absurd rfl this
        | cons a t => simp
      have := ih (fun x hx => h x (by simp [hx]))
      simp only [List.flatten_cons, List.length_cons, List.length_append]
      omega

theorem emits_segs_ne_nil : ∀ {segs : List (List Char)} {ps : List (FormatPiece T)},
    List.Forall₂ (Emits m) segs ps → ∀ s ∈ segs, s ≠ [] := by
  intro segs ps hall
  induction hall with
  | nil => simp
  | cons hem _ ih =>
      intro s hs
      rcases List.mem_cons.mp hs with rfl | hs
      · exact hem.ne_nil
      · exact ih s hs

theorem scanGo_length_le {l : List Char} {md : Option (List Char)}
    {ps : List (FormatPiece T)} (h : scanGo m l none = .ok (md, ps)) :
    ps.length ≤ l.length := by
  obtain ⟨segs, tail, rfl, hall, -⟩ := scanGo_ok_decomp ps l md h
  have h1 : ps.length = segs.length := (List.Forall₂.length_eq hall).symm
  have h2 : segs.length ≤ segs.flatten.length :=
    length_le_flatten segs (emits_segs_ne_nil hall)
  simp only [List.length_append]
  omega

end funcfmt

namespace funcfmt

variable {T : Type} {m : FormatMap T}

theorem scanGo_open_err : ∀ (l acc : List Char) (e : Error),
    scanGo m l (some acc) = .error e →
    (e = .ImbalancedBrackets ∧ ∃ k rest, NoBraces k ∧ l = k ++ '{' :: rest ∧ acc ++ k ≠ []) ∨
    (∃ k rest, NoBraces k ∧ l = k ++ '}' :: rest ∧ e = .UnknownKey (String.mk (acc ++ k)) ∧
       m (String.mk (acc ++ k)) = none) ∨
    (∃ k rest f, NoBraces k ∧ l = k ++ '}' :: rest ∧ m (String.mk (acc ++ k)) = some f ∧
       scanGo m rest none = .error e) ∨
    (acc = [] ∧ ∃ rest, l = '{' :: rest ∧ scanGo m rest none = .error e) := by
  intro l
  induction l with
  | nil => intro acc e h; simp [scanGo] at h
  | cons c l ih =>
      intro acc e h
      by_cases hc1 : c = '{'
      · subst hc1
        cases acc with
        | nil =>
            simp [scanGo] at h
            cases hr : scanGo m l none with
            | error e₂ =>
                rw [hr] at h; simp [Except.map] at h
                subst h
                exact Or.inr (Or.inr (Or.inr ⟨rfl, l, rfl, hr⟩))
            | ok q => rw [hr] at h; simp [Except.map] at h
        | cons a acc₂ =>
            simp [scanGo] at h
            subst h
            exact Or.inl ⟨rfl, [], l, by intro x hx; simp at hx, by simp, by simp⟩
      · by_cases hc2 : c = '}'
        · subst hc2
          cases hf : m (String.mk acc) with
          | none =>
              simp [scanGo, hf] at h
              subst h
              exact Or.inr (Or.inl ⟨[], l, by intro x hx; simp at hx, by simp, by simp, by
                simpa using hf⟩)
          | some f =>
              simp [scanGo, hf] at h
              cases hr : scanGo m l none with
              | error e₂ =>
                  rw [hr] at h; simp [Except.map] at h
                  subst h
                  exact Or.inr (Or.inr (Or.inl ⟨[], l, f, by intro x hx; simp at hx, by simp,
                    by simpa using hf, hr⟩))
              | ok q => rw [hr] at h; simp [Except.map] at h
        · rw [scanGo_cons_other_open hc1 hc2] at h
          rcases ih (acc ++ [c]) e h with ⟨rfl, k, rest, hk, rfl, hne⟩ |
            ⟨k, rest, hk, rfl, he, hm⟩ | ⟨k, rest, f, hk, rfl, hm, hr⟩ | ⟨habs, -⟩
          · refine Or.inl ⟨rfl, c :: k, rest, ?_, by simp, by simp⟩
            intro x hx
            rcases List.mem_cons.mp hx with rfl | hx
            · exact ⟨hc1, hc2⟩
            · exact hk x hx
          · refine Or.inr (Or.inl ⟨c :: k, rest, ?_, by simp, by simpa [List.append_assoc] using he,
              by simpa [List.append_assoc] using hm⟩)
            intro x hx
            rcases List.mem_cons.mp hx with rfl | hx
            · exact ⟨hc1, hc2⟩
            · exact hk x hx
          · refine Or.inr (Or.inr (Or.inl ⟨c :: k, rest, f, ?_, by simp,
              by simpa [List.append_assoc] using hm, hr⟩))
            intro x hx
            rcases List.mem_cons.mp hx with rfl | hx
            · exact ⟨hc1, hc2⟩
            · exact hk x hx
          · simp at habs

end funcfmt

namespace funcfmt

variable {T : Type} {m : FormatMap T}

theorem scanGo_err_split_fuel : ∀ (n : Nat) (l : List Char) (e : Error), l.length ≤ n →
    scanGo m l none = .error e →
    ∃ pre ps l₂, l = pre ++ l₂ ∧ scanGo m pre none = .ok (none, ps) ∧ ImmediateErr m l₂ e := by
  intro n
  induction n with
  | zero =>
      intro l e hn h
      have : l = [] := List.length_eq_zero.mp (Nat.le_zero.mp hn)
      subst this
      simp [scanGo] at h
  | succ n ih =>
      intro l e hn h
      cases l with
      | nil => simp [scanGo] at h
      | cons c rest =>
          by_cases hc1 : c = '{'
          · subst hc1
            simp [scanGo] at h
            rcases scanGo_open_err rest [] e h with ⟨rfl, k, rest₂, hk, rfl, hne⟩ |
              ⟨k, rest₂, hk, rfl, he, hm⟩ | ⟨k, rest₂, f, hk, rfl, hm, hr⟩ | ⟨-, rest₂, rfl, hr⟩
            · exact ⟨[], [], _, by simp, rfl,
                Or.inr (Or.inl ⟨rfl, k, rest₂, hk, by simpa using hne, rfl⟩)⟩
            · exact ⟨[], [], _, by simp, rfl,
                Or.inr (Or.inr ⟨k, rest₂, hk, rfl, by simpa using he, by simpa using hm⟩)⟩
            · obtain ⟨pre₂, ps₂, l₂, rfl, hpre, himm⟩ := ih rest₂ _ (by
                simp [List.length_append] at hn ⊢; omega) hr
              refine ⟨'{' :: k ++ '}' :: pre₂, .Formatter (String.mk k) f :: ps₂, l₂,
                by simp, ?_, himm⟩
              have hstep : scanGo m ('{' :: k ++ '}' :: pre₂) none
                  = scanGo m (k ++ '}' :: pre₂) (some []) := by simp [scanGo]
              rw [hstep, scanGo_accum k hk]
              simp only [List.nil_append, scanGo]
              rw [(by simpa using hm : m (String.mk k) = some f), hpre]
              rfl
            · obtain ⟨pre₂, ps₂, l₂, rfl, hpre, himm⟩ := ih rest₂ _ (by
                simp at hn ⊢; omega) hr
              refine ⟨'{' :: '{' :: pre₂, .Char '{' :: ps₂, l₂, by simp, ?_, himm⟩
              simp [scanGo, hpre, Except.map]
          · by_cases hc2 : c = '}'
            · subst hc2
              cases rest with
              | nil =>
                  rw [scanGo_close_nopair (by intro r h'; simp at h')] at h
                  cases h
                  exact ⟨[], [], ['}'], by simp, rfl, Or.inl ⟨rfl, [], rfl, by simp⟩⟩
              | cons c2 rest₂ =>
                  by_cases hc2' : c2 = '}'
                  · subst hc2'
                    simp [scanGo] at h
                    cases hr : scanGo m rest₂ none with
                    | ok q => rw [hr] at h; simp [Except.map] at h
                    | error e₂ =>
                        rw [hr] at h; simp [Except.map] at h
                        subst h
                        obtain ⟨pre₂, ps₂, l₂, rfl, hpre, himm⟩ := ih rest₂ _ (by
                          simp at hn ⊢; omega) hr
                        refine ⟨'}' :: '}' :: pre₂, .Char '}' :: ps₂, l₂, by simp, ?_, himm⟩
                        simp [scanGo, hpre, Except.map]
                  · rw [scanGo_close_nopair
                      (by intro r h'; injection h' with h1 _; exact hc2' h1)] at h
                    cases h
                    exact ⟨[], [], '}' :: c2 :: rest₂, by simp, rfl,
                      Or.inl ⟨rfl, c2 :: rest₂, rfl,
                        by intro r h'; injection h' with h1 _; exact hc2' h1⟩⟩
            · rw [scanGo_cons_other hc1 hc2] at h
              cases hr : scanGo m rest none with
              | ok q => rw [hr] at h; simp [Except.map] at h
              | error e₂ =>
                  rw [hr] at h; simp [Except.map] at h
                  subst h
                  obtain ⟨pre₂, ps₂, l₂, rfl, hpre, himm⟩ := ih rest _ (by
                    simp at hn ⊢; omega) hr
                  refine ⟨c :: pre₂, .Char c :: ps₂, l₂, by simp, ?_, himm⟩
                  rw [scanGo_cons_other hc1 hc2, hpre]
                  rfl

end funcfmt

namespace funcfmt

variable {T : Type} {m : FormatMap T}

theorem scanGo_err_split {l : List Char} {e : Error} (h : scanGo m l none = .error e) :
    ∃ pre ps l₂, l = pre ++ l₂ ∧ scanGo m pre none = .ok (none, ps) ∧ ImmediateErr m l₂ e :=
  scanGo_err_split_fuel l.length l e le_rfl h

theorem scanGo_err_kinds : ∀ (l : List Char) (mode : Option (List Char)) (e : Error),
    scanGo m l mode = .error e →
    e = .ImbalancedBrackets ∨ ∃ w, e = .UnknownKey w := by
  intro l mode
  induction l, mode using scanGo.induct (m := m) with
  | case1 mode => intro e h; simp [scanGo] at h
  | case2 rest ih => intro e h; simp [scanGo] at h; exact ih e h
  | case3 rest ih =>
      intro e h
      simp [scanGo] at h
      cases hr : scanGo m rest none with
      | error e₂ =>
          rw [hr] at h; simp [Except.map] at h
          subst h; exact ih _ hr
      | ok q => rw [hr] at h; simp [Except.map] at h
  | case4 tail acc hacc =>
      intro e h
      obtain ⟨a, acc₂, rfl⟩ : ∃ a r, acc = a :: r := by
        cases acc with
        | nil => exact absurd rfl hacc
        | cons a r => exact ⟨a, r, rfl⟩
      simp [scanGo] at h
      subst h; exact Or.inl rfl
  | case5 rest ih =>
      intro e h
      simp [scanGo] at h
      cases hr : scanGo m rest none with
      | error e₂ =>
          rw [hr] at h; simp [Except.map] at h
          subst h; exact ih _ hr
      | ok q => rw [hr] at h; simp [Except.map] at h
  | case6 tail hne =>
      intro e h
      rw [scanGo_close_nopair hne] at h
      cases h; exact Or.inl rfl
  | case7 rest acc f hf ih =>
      intro e h
      simp [scanGo, hf] at h
      cases hr : scanGo m rest none with
      | error e₂ =>
          rw [hr] at h; simp [Except.map] at h
          subst h; exact ih _ hr
      | ok q => rw [hr] at h; simp [Except.map] at h
  | case8 rest acc hf =>
      intro e h
      simp [scanGo, hf] at h
      subst h; exact Or.inr ⟨String.mk acc, rfl⟩
  | case9 c rest hc1 hc2 hc3 ih =>
      intro e h
      rw [scanGo_cons_other (fun he => hc1 he) (fun he => hc3 he)] at h
      cases hr : scanGo m rest none with
      | error e₂ =>
          rw [hr] at h; simp [Except.map] at h
          subst h; exact ih _ hr
      | ok q => rw [hr] at h; simp [Except.map] at h
  | case10 c rest acc h1 hc1 hc2 ih =>
      intro e h
      rw [scanGo_cons_other_open (fun he => hc1 he) (fun he => hc2 he)] at h
      exact ih e h

end funcfmt

namespace funcfmt

variable {T : Type} {m : FormatMap T}

theorem fpGo_cons_other {v rest : List Char} {c : Char} {idx : Nat}
    {out : List (FormatPiece T)} (hc1 : c ≠ '{') (hc2 : c ≠ '}') :
    fpGo m v (c :: rest) idx 0 out = fpGo m v rest (idx + 1) 0 (out ++ [.Char c]) := by
  rw [fpGo.eq_def]
  split <;> simp_all

theorem fpGo_cons_other_open {v rest : List Char} {c : Char} {idx s : Nat}
    {out : List (FormatPiece T)} (hc1 : c ≠ '{') (hc2 : c ≠ '}') (hs : s ≠ 0) :
    fpGo m v (c :: rest) idx s out = fpGo m v rest (idx + 1) s out := by
  rw [fpGo.eq_def]
  split <;> simp_all

theorem fpGo_close_nopair {v rest : List Char} {idx : Nat} {out : List (FormatPiece T)}
    (h : ∀ r, rest ≠ '}' :: r) :
    fpGo m v ('}' :: rest) idx 0 out = .error .ImbalancedBrackets := by
  rw [fpGo.eq_def]
  split <;> simp_all
  all_goals
    rename_i hca hcb heq
    exact absurd heq.1.symm hcb

theorem fpGo_close_open {v rest : List Char} {idx s : Nat} {out : List (FormatPiece T)}
    (hs : s ≠ 0) :
    fpGo m v ('}' :: rest) idx s out =
      match m (String.mk ((v.drop s).take (idx - s))) with
      | some f =>
          fpGo m v rest (idx + 1) 0 (out ++ [.Formatter (String.mk ((v.drop s).take (idx - s))) f])
      | none => .error (.UnknownKey (String.mk ((v.drop s).take (idx - s)))) := by
  rw [fpGo.eq_def]
  split <;> simp_all
  all_goals
    rename_i hca hcb heq
    exact absurd heq.1.symm hcb

theorem fpGo_open_open {v rest : List Char} {idx s : Nat} {out : List (FormatPiece T)}
    (hs : s ≠ 0) :
    fpGo m v ('{' :: rest) idx s out =
      match checkedSub idx s with
      | some 0 => fpGo m v rest (idx + 1) 0 (out ++ [.Char '{'])
      | some _ => .error .ImbalancedBrackets
      | none => .error .Overflow := by
  rw [fpGo.eq_def]
  split <;> simp_all
  all_goals
    rename_i hca hcb heq
    exact absurd heq.1.symm hca

theorem fpGo_open_overflow {v : List Char} {idx : Nat} {out : List (FormatPiece T)}
    (h : checkedAdd idx 1 = none) (rest : List Char) :
    fpGo m v ('{' :: rest) idx 0 out = .error .Overflow := by
  rw [fpGo.eq_def]
  simp [h]

theorem drop_cons_succ {v rest : List Char} {c : Char} {idx : Nat}
    (h : v.drop idx = c :: rest) : v.drop (idx + 1) = rest := by
  have h1 : (v.drop idx).drop 1 = rest := by rw [h]; rfl
  rw [← h1, List.drop_drop]

theorem drop_cons_get {v rest : List Char} {c : Char} {idx : Nat}
    (h : v.drop idx = c :: rest) : v[idx]? = some c := by
  have h1 : (v.drop idx)[0]? = some c := by rw [h]; simp
  rwa [List.getElem?_drop, Nat.add_zero] at h1

theorem drop_cons_lt {v rest : List Char} {c : Char} {idx : Nat}
    (h : v.drop idx = c :: rest) : idx < v.length := by
  by_contra hge
  rw [List.drop_eq_nil_of_le (Nat.le_of_not_lt hge)] at h
  exact List.noConfusion h

theorem take_drop_extend {v rest : List Char} {c : Char} {idx s : Nat}
    (h : v.drop idx = c :: rest) (hs : s ≤ idx) :
    (v.drop s).take (idx + 1 - s) = (v.drop s).take (idx - s) ++ [c] := by
  have he : idx + 1 - s = (idx - s) + 1 := by omega
  rw [he, List.take_succ, List.getElem?_drop,
    (by omega : s + (idx - s) = idx), drop_cons_get h]
  rfl

end funcfmt

namespace funcfmt

variable {T : Type} {m : FormatMap T}

theorem exceptMap_cons_out (x : Except Error (Option (List Char) × List (FormatPiece T)))
    (out : List (FormatPiece T)) (p₀ : FormatPiece T) :
    (x.map (fun p => (p.1, p₀ :: p.2))).map (fun p => out ++ p.2)
      = x.map (fun p => (out ++ [p₀]) ++ p.2) := by
  cases x <;> simp [Except.map]

theorem fpGo_scanGo {v : List Char} (hv : v.length ≤ USIZE_MAX) :
    ∀ (n : Nat) (rest : List Char) (idx s : Nat) (out : List (FormatPiece T)),
    rest.length ≤ n → rest = v.drop idx → s ≤ idx →
    fpGo m v rest idx s out = (scanGo m rest (modeOf v idx s)).map (fun p => out ++ p.2) := by
  intro n
  induction n with
  | zero =>
      intro rest idx s out hn hdrop hs
      have : rest = [] := List.length_eq_zero.mp (Nat.le_zero.mp hn)
      subst this
      by_cases hs0 : s = 0 <;> simp [fpGo, scanGo, modeOf, hs0, Except.map]
  | succ n ih =>
      intro rest idx s out hn hdrop hs
      cases rest with
      | nil => by_cases hs0 : s = 0 <;> simp [fpGo, scanGo, modeOf, hs0, Except.map]
      | cons c rest' =>
          have hlt : idx < v.length := drop_cons_lt hdrop.symm
          have hdrop' : rest' = v.drop (idx + 1) := (drop_cons_succ hdrop.symm).symm
          have hn' : rest'.length ≤ n := by simp at hn; omega
          by_cases hc1 : c = '{'
          · subst hc1
            by_cases hs0 : s = 0
            · subst hs0
              have hadd : checkedAdd idx 1 = some (idx + 1) := by
                simp only [checkedAdd,
                  if_pos (le_trans (by omega : idx + 1 ≤ v.length) hv)]
              simp only [fpGo, hadd, modeOf, if_pos rfl, scanGo]
              rw [ih rest' (idx + 1) (idx + 1) out hn' hdrop' le_rfl]
              simp [modeOf, List.take_zero]
            · have hsub : checkedSub idx s = some (idx - s) := by
                simp only [checkedSub, if_pos hs]
              rw [fpGo_open_open hs0, hsub]
              have hmode : modeOf v idx s = some ((v.drop s).take (idx - s)) := by
                simp [modeOf, hs0]
              by_cases hd0 : idx - s = 0
              · have hacc : (v.drop s).take (idx - s) = [] := by simp [hd0]
                rw [hd0, hmode, hacc]
                simp only [scanGo]
                rw [ih rest' (idx + 1) 0 (out ++ [FormatPiece.Char '{']) hn' hdrop' (by omega)]
                simp only [modeOf, if_pos rfl]
                exact (exceptMap_cons_out _ _ _).symm
              · obtain ⟨a, acc₂, hacc⟩ : ∃ a r₂, (v.drop s).take (idx - s) = a :: r₂ := by
                  have hpos : 0 < ((v.drop s).take (idx - s)).length := by
                    simp only [List.length_take, List.length_drop]
                    omega
                  cases hx : (v.drop s).take (idx - s) with
                  | nil => rw [hx] at hpos; simp at hpos
                  | cons a r₂ => exact ⟨a, r₂, rfl⟩
                obtain ⟨val, hval⟩ : ∃ w, idx - s = w + 1 := ⟨idx - s - 1, by omega⟩
                rw [hval, hmode, hacc]
                simp [scanGo, Except.map]
          · by_cases hc2 : c = '}'
            · subst hc2
              by_cases hs0 : s = 0
              · subst hs0
                cases rest' with
                | nil =>
                    rw [fpGo_close_nopair (by intro r h'; simp at h'),
                      show modeOf v idx 0 = none from rfl,
                      scanGo_close_nopair (by intro r h'; simp at h')]
                    rfl
                | cons c2 rest'' =>
                    by_cases hc2' : c2 = '}'
                    · subst hc2'
                      have hdrop'' : rest'' = v.drop (idx + 2) := by
                        have h2 := drop_cons_succ hdrop'.symm
                        exact h2.symm
                      simp only [fpGo, show modeOf v idx 0 = none from rfl, scanGo]
                      rw [ih rest'' (idx + 2) 0 (out ++ [FormatPiece.Char '}']) (by simp at hn; omega)
                        hdrop'' (by omega)]
                      simp only [modeOf, if_pos rfl]
                      exact (exceptMap_cons_out _ _ _).symm
                    · rw [fpGo_close_nopair
                        (by intro r h'; injection h' with h1 _; exact hc2' h1),
                        show modeOf v idx 0 = none from rfl,
                        scanGo_close_nopair
                        (by intro r h'; injection h' with h1 _; exact hc2' h1)]
                      rfl
              · have hmode : modeOf v idx s = some ((v.drop s).take (idx - s)) := by
                  simp [modeOf, hs0]
                rw [fpGo_close_open hs0, hmode]
                cases hf : m (String.mk ((v.drop s).take (idx - s))) with
                | some f =>
                    simp only [scanGo, hf]
                    rw [ih rest' (idx + 1) 0
                      (out ++ [FormatPiece.Formatter (String.mk ((v.drop s).take (idx - s))) f])
                      hn' hdrop' (by omega)]
                    simp only [modeOf, if_pos rfl]
                    exact (exceptMap_cons_out _ _ _).symm
                | none => simp [scanGo, hf, Except.map]
            · by_cases hs0 : s = 0
              · subst hs0
                rw [fpGo_cons_other hc1 hc2, show modeOf v idx 0 = none from rfl,
                  scanGo_cons_other hc1 hc2]
                rw [ih rest' (idx + 1) 0 (out ++ [FormatPiece.Char c]) hn' hdrop' (by omega)]
                simp only [modeOf, if_pos rfl]
                exact (exceptMap_cons_out _ _ _).symm
              · have hmode : modeOf v idx s = some ((v.drop s).take (idx - s)) := by
                  simp [modeOf, hs0]
                rw [fpGo_cons_other_open hc1 hc2 hs0, hmode,
                  scanGo_cons_other_open hc1 hc2]
                rw [ih rest' (idx + 1) s out hn' hdrop' (by omega)]
                have hext := take_drop_extend hdrop.symm hs
                simp [modeOf, hs0, hext]

theorem toFormatPieces_eq_scanGo {tmpl : List Char} (hv : tmpl.length ≤ USIZE_MAX) :
    toFormatPieces m tmpl = (scanGo m tmpl none).map (fun p => p.2) := by
  unfold toFormatPieces
  rw [fpGo_scanGo hv tmpl.length tmpl 0 0 [] le_rfl (by simp) le_rfl]
  show (scanGo m tmpl (modeOf tmpl 0 0)).map (fun p => [] ++ p.2) = _
  cases hsc : scanGo m tmpl none <;> simp [modeOf, hsc, Except.map]

end funcfmt

namespace funcfmt

variable {T : Type} {m : FormatMap T}

theorem fpGo_braceless {v : List Char} : ∀ (l : List Char), NoBraces l →
    ∀ (tail : List Char) (idx : Nat) (out : List (FormatPiece T)),
    fpGo m v (l ++ tail) idx 0 out = fpGo m v tail (idx + l.length) 0 (out ++ l.map .Char) := by
  intro l
  induction l with
  | nil => intro _ tail idx out; simp
  | cons c l ih =>
      intro h tail idx out
      obtain ⟨hc1, hc2⟩ := h c (by simp)
      rw [List.cons_append, fpGo_cons_other hc1 hc2,
        ih (fun x hx => h x (by simp [hx])) tail (idx + 1) (out ++ [FormatPiece.Char c])]
      simp only [List.map_cons, List.length_cons, List.append_assoc, List.cons_append,
        List.nil_append]
      congr 1
      omega

theorem string_push_mk (s : String) (c : Char) : s.push c = String.mk (s.data ++ [c]) := by
  cases s; rfl

theorem string_append_mk (a b : String) : a ++ b = String.mk (a.data ++ b.data) := by
  cases a; cases b; rfl

theorem string_mk_data (s : String) : String.mk s.data = s := by
  cases s; rfl

theorem renderGo_append {d : T} : ∀ (ps₁ : List (FormatPiece T)), AllSome d ps₁ →
    ∀ (tail : List (FormatPiece T)) (out : String),
    renderGo d (ps₁ ++ tail) out = renderGo d tail (String.mk (out.data ++ piecesOut d ps₁)) := by
  intro ps₁
  induction ps₁ with
  | nil =>
      intro _ tail out
      simp [piecesOut, string_mk_data]
  | cons p ps ih =>
      intro h tail out
      cases p with
      | Char c =>
          rw [List.cons_append]
          show renderGo d (ps ++ tail) (out.push c) = _
          rw [string_push_mk, ih (fun k cb hk => h k cb (by simp [hk])) tail]
          simp [piecesOut, pieceChars]
      | Formatter key cb =>
          have hsome : (cb d).isSome = true := h key cb (by simp)
          obtain ⟨s, hsv⟩ := Option.isSome_iff_exists.mp hsome
          rw [List.cons_append]
          show (match cb d with
            | some s => renderGo d (ps ++ tail) (out ++ s)
            | none => .error (.NoData key)) = _
          rw [hsv]
          show renderGo d (ps ++ tail) (out ++ s) = _
          rw [string_append_mk, ih (fun k cb hk => h k cb (by simp [hk])) tail]
          simp [piecesOut, pieceChars, hsv]

theorem render_allSome {d : T} {ps : List (FormatPiece T)} (h : AllSome d ps)
    (hcap : ps.length * 4 ≤ USIZE_MAX) :
    render ps d = .ok (String.mk (piecesOut d ps)) := by
  unfold render
  rw [show checkedMul ps.length 4 = some (ps.length * 4) by simp [checkedMul, hcap]]
  have := renderGo_append ps h [] (r"")
  rw [List.append_nil] at this
  rw [this]
  rfl

theorem renderGo_err_kinds {d : T} : ∀ (ps : List (FormatPiece T)) (out : String) (e : Error),
    renderGo d ps out = .error e → ∃ k, e = .NoData k := by
  intro ps
  induction ps with
  | nil => intro out e h; simp [renderGo] at h
  | cons p ps ih =>
      intro out e h
      cases p with
      | Char c => exact ih _ e h
      | Formatter key cb =>
          revert h
          show (match cb d with
            | some s => renderGo d ps (out ++ s)
            | none => .error (.NoData key)) = .error e → _
          cases cb d with
          | some s => exact fun h => ih _ e h
          | none =>
              intro h
              injection h with h1
              exact ⟨key, h1.symm⟩

end funcfmt

namespace funcfmt

theorem flatten_singletons : ∀ (l : List Char), (l.map (fun c => [c])).flatten = l := by
  intro l
  induction l with
  | nil => rfl
  | cons c l ih => simp [ih]

theorem exceptMap_eq_error {α β : Type} {x : Except Error α} {f : α → β} {e : Error} :
    x.map f = .error e ↔ x = .error e := by
  cases x <;> simp [Except.map]

theorem toFormatPieces_error_iff {T : Type} {m : FormatMap T} {tmpl : List Char} {e : Error}
    (hv : tmpl.length ≤ USIZE_MAX) :
    toFormatPieces m tmpl = .error e ↔ scanGo m tmpl none = .error e := by
  rw [toFormatPieces_eq_scanGo hv, exceptMap_eq_error]

theorem toFormatPieces_ok_iff {T : Type} {m : FormatMap T} {tmpl : List Char}
    {ps : List (FormatPiece T)} (hv : tmpl.length ≤ USIZE_MAX) :
    toFormatPieces m tmpl = .ok ps ↔ ∃ md, scanGo m tmpl none = .ok (md, ps) := by
  rw [toFormatPieces_eq_scanGo hv]
  cases hsc : scanGo m tmpl none with
  | error e => simp [Except.map]
  | ok q =>
      simp [Except.map]
      constructor
      · intro h; exact ⟨q.1, by rw [← h]⟩
      · intro ⟨md, h⟩; rw [show q = (md, ps) from h]

/-- Claim C1: if every `Formatter` piece's callback returns `Some` on the data,
`render` returns `Ok` with the in-order concatenation of literal characters
and callback outputs. -/
theorem c1_render_ok_concat (T : Type) (d : T) (ps : List (FormatPiece T))
    (hall : AllSome d ps) (hcap : ps.length * 4 ≤ USIZE_MAX) :
    render ps d = .ok (String.mk (piecesOut d ps)) :=
  render_allSome hall hcap

theorem c1_witness :
    render [FormatPiece.Char 'a', FormatPiece.Formatter (r"k") (fun _ => some (r"bc")),
      FormatPiece.Char 'd'] (0 : Nat) = .ok (r"abcd") := by
  have h := c1_render_ok_concat Nat 0
    [FormatPiece.Char 'a', FormatPiece.Formatter (r"k") (fun _ => some (r"bc")),
      FormatPiece.Char 'd']
    (by
      intro key cb hmem
      simp at hmem
      obtain ⟨rfl, rfl⟩ := hmem
      rfl)
    (by decide)
  rw [h]
  rfl

/-- Claim C2: a template with no brace characters always compiles, to one
literal piece per character, and rendering returns the template unchanged for
any mapping and any data. -/
theorem c2_no_braces_identity (T : Type) (m : FormatMap T) (tmpl : List Char) (d : T)
    (hnb : NoBraces tmpl) (hcap : tmpl.length * 4 ≤ USIZE_MAX) :
    toFormatPieces m tmpl = .ok (tmpl.map FormatPiece.Char) ∧
      render (tmpl.map FormatPiece.Char) d = .ok (String.mk tmpl) := by
  constructor
  · unfold toFormatPieces
    have h := fpGo_braceless (m := m) (v := tmpl) tmpl hnb [] 0 []
    simpa [fpGo] using h
  · have hall : AllSome d (tmpl.map FormatPiece.Char) := by
      intro key cb hmem
      simp at hmem
    have h := render_allSome hall (by simpa using hcap)
    rw [h]
    congr 1
    simp [piecesOut, pieceChars, List.map_map]
    exact congrArg String.mk (flatten_singletons tmpl)

theorem c2_witness :
    toFormatPieces (fun _ => none : FormatMap Nat) ['a', 'β', 'c']
        = .ok [FormatPiece.Char 'a', FormatPiece.Char 'β', FormatPiece.Char 'c'] ∧
      render [FormatPiece.Char 'a', FormatPiece.Char 'β', FormatPiece.Char 'c'] (5 : Nat)
        = .ok (r"aβc") := by
  have h := c2_no_braces_identity Nat (fun _ => none) ['a', 'β', 'c'] 5 (by decide) (by decide)
  exact ⟨h.1, h.2⟩

end funcfmt

namespace funcfmt

theorem escPairs_length : ∀ (blocks : List Char), (escPairs blocks).length = 2 * blocks.length := by
  intro blocks
  induction blocks with
  | nil => rfl
  | cons b blocks ih =>
      simp [escPairs] at ih ⊢
      omega

/-- Claim C3: (a) a template made solely of balanced escaped pairs compiles and
renders to the template with each pair collapsed to a single brace; (b) every
successfully compiled piece sequence decomposes into per-piece template
segments, and (c) a literal brace `Char` piece can only arise from the
two-character escaped segment `{{` or `}}` (never from a single brace). -/
theorem c3_escaped_pairs :
    (∀ (T : Type) (m : FormatMap T) (blocks : List Char) (d : T),
      (∀ b ∈ blocks, b = '{' ∨ b = '}') → blocks.length * 4 ≤ USIZE_MAX →
      toFormatPieces m (escPairs blocks) = .ok (blocks.map FormatPiece.Char) ∧
        render (blocks.map FormatPiece.Char) d = .ok (String.mk blocks)) ∧
    (∀ (T : Type) (m : FormatMap T) (tmpl : List Char) (ps : List (FormatPiece T)),
      tmpl.length ≤ USIZE_MAX → toFormatPieces m tmpl = .ok ps →
      ∃ segs tail, tmpl = segs.flatten ++ tail ∧ List.Forall₂ (Emits m) segs ps) ∧
    (∀ (T : Type) (m : FormatMap T) (seg : List Char) (c : Char),
      Emits m seg (FormatPiece.Char c) →
      (c = '{' → seg = ['{', '{']) ∧ (c = '}' → seg = ['}', '}'])) := by
  refine ⟨?_, ?_, ?_⟩
  · intro T m blocks d hb hcap
    constructor
    · rw [toFormatPieces_ok_iff (by rw [escPairs_length]; omega)]
      exact ⟨none, scanGo_escPairs blocks hb⟩
    · have hall : AllSome d (blocks.map FormatPiece.Char) := by
        intro key cb hmem
        simp at hmem
      rw [render_allSome hall (by simpa using hcap)]
      congr 1
      simp [piecesOut, pieceChars, List.map_map]
      exact congrArg String.mk (flatten_singletons blocks)
  · intro T m tmpl ps hv hok
    obtain ⟨md, hsc⟩ := (toFormatPieces_ok_iff hv).mp hok
    obtain ⟨segs, tail, heq, hall, -⟩ := scanGo_ok_decomp ps tmpl md hsc
    exact ⟨segs, tail, heq, hall⟩
  · intro T m seg c hem
    cases hem with
    | char c hc1 hc2 => exact ⟨fun h => absurd h hc1, fun h => absurd h hc2⟩
    | escOpen => exact ⟨fun _ => rfl, fun h => absurd h (by decide)⟩
    | escClose => exact ⟨fun h => absurd h (by decide), fun _ => rfl⟩

theorem c3_witness :
    toFormatPieces (fun _ => none : FormatMap Nat) (escPairs ['{', '}'])
        = .ok [FormatPiece.Char '{', FormatPiece.Char '}'] ∧
      render [FormatPiece.Char '{', FormatPiece.Char '}'] (0 : Nat)
        = .ok (String.mk ['{', '}']) := by
  have h := c3_escaped_pairs.1 Nat (fun _ => none) ['{', '}'] 0 (by decide) (by decide)
  exact ⟨h.1, h.2⟩

end funcfmt

namespace funcfmt

/-- Claim C4: compilation reports the payload-free imbalanced-brackets error
exactly when the scan, after a cleanly scanned prefix, meets a `}` whose next
character is not another `}` while no placeholder is open, or meets a `{`
while a placeholder is open with a nonempty key accumulated (i.e. not
immediately after the opening `{`); in particular both concrete templates
`{f{oo}` and `{foo}}` fail this way when `foo` is registered. -/
theorem c4_imbalanced_iff :
    (∀ (T : Type) (m : FormatMap T) (tmpl : List Char), tmpl.length ≤ USIZE_MAX →
      (toFormatPieces m tmpl = .error .ImbalancedBrackets ↔
        ∃ pre ps, scanGo m pre none = .ok (none, ps) ∧
          ((∃ rest, tmpl = pre ++ '}' :: rest ∧ ∀ r, rest ≠ '}' :: r) ∨
           (∃ k rest, NoBraces k ∧ k ≠ [] ∧ tmpl = pre ++ ('{' :: k ++ '{' :: rest))))) ∧
    (∀ (m : FormatMap Nat) (f : FormatterCallback Nat), m (r"foo") = some f →
      toFormatPieces m ['{', 'f', '{', 'o', 'o', '}'] = .error .ImbalancedBrackets) ∧
    (∀ (m : FormatMap Nat) (f : FormatterCallback Nat), m (r"foo") = some f →
      toFormatPieces m ['{', 'f', 'o', 'o', '}', '}'] = .error .ImbalancedBrackets) := by
  refine ⟨?_, ?_, ?_⟩
  · intro T m tmpl hv
    rw [toFormatPieces_error_iff hv]
    constructor
    · intro h
      obtain ⟨pre, ps, l₂, rfl, hpre, himm⟩ := scanGo_err_split h
      rcases himm with ⟨-, rest, rfl, hnr⟩ | ⟨-, k, rest, hk, hkne, rfl⟩ |
        ⟨k, rest, hk, rfl, habs, -⟩
      · exact ⟨pre, ps, hpre, Or.inl ⟨rest, rfl, hnr⟩⟩
      · exact ⟨pre, ps, hpre, Or.inr ⟨k, rest, hk, hkne, rfl⟩⟩
      · cases habs
    · rintro ⟨pre, ps, hpre, ⟨rest, rfl, hnr⟩ | ⟨k, rest, hk, hkne, rfl⟩⟩
      · rw [scanGo_append pre none none ps ('}' :: rest) hpre,
          scanGo_close_nopair hnr]
        rfl
      · rw [scanGo_append pre none none ps ('{' :: k ++ '{' :: rest) hpre]
        have h1 : scanGo m ('{' :: k ++ '{' :: rest) none
            = scanGo m (k ++ '{' :: rest) (some []) := by simp [scanGo]
        rw [h1, scanGo_accum k hk]
        obtain ⟨a, k₂, rfl⟩ : ∃ a r, k = a :: r := by
          cases k with
          | nil => exact absurd rfl hkne
          | cons a r => exact ⟨a, r, rfl⟩
        simp [scanGo, Except.map]
  · intro m f hf
    rfl
  · intro m f hf
    rw [toFormatPieces_error_iff (by decide)]
    have h1 : scanGo m ['{', 'f', 'o', 'o', '}', '}'] none
        = scanGo m (['f', 'o', 'o'] ++ '}' :: ['}']) (some []) := by simp [scanGo]
    rw [h1, scanGo_accum ['f', 'o', 'o'] (by decide)]
    have h2 : m (String.mk ['f', 'o', 'o']) = some f := hf
    simp [scanGo, h2, Except.map]

theorem c4_witness :
    toFormatPieces fooMap ['{', 'f', '{', 'o', 'o', '}'] = .error .ImbalancedBrackets ∧
      toFormatPieces fooMap ['{', 'f', 'o', 'o', '}', '}'] = .error .ImbalancedBrackets :=
  ⟨c4_imbalanced_iff.2.1 fooMap (fun n => some (toString n)) rfl,
   c4_imbalanced_iff.2.2 fooMap (fun n => some (toString n)) rfl⟩

/-- Claim C5: compilation returns the unknown-key error, carrying key `w`,
exactly when the scan completes a placeholder whose brace-free key text `w`
is absent from the mapping, after a cleanly scanned prefix (so the error key
is always the first offending placeholder). -/
theorem c5_unknown_key_iff (T : Type) (m : FormatMap T) (tmpl : List Char) (w : String)
    (hv : tmpl.length ≤ USIZE_MAX) :
    toFormatPieces m tmpl = .error (.UnknownKey w) ↔
      ∃ pre ps k rest, tmpl = pre ++ ('{' :: k ++ '}' :: rest) ∧
        scanGo m pre none = .ok (none, ps) ∧ NoBraces k ∧ w = String.mk k ∧
        m (String.mk k) = none := by
  rw [toFormatPieces_error_iff hv]
  constructor
  · intro h
    obtain ⟨pre, ps, l₂, rfl, hpre, himm⟩ := scanGo_err_split h
    rcases himm with ⟨habs, -⟩ | ⟨habs, -⟩ | ⟨k, rest, hk, rfl, hw, hm⟩
    · cases habs
    · cases habs
    · exact ⟨pre, ps, k, rest, rfl, hpre, hk, by injection hw, hm⟩
  · rintro ⟨pre, ps, k, rest, rfl, hpre, hk, rfl, hm⟩
    rw [scanGo_append pre none none ps ('{' :: k ++ '}' :: rest) hpre]
    have h1 : scanGo m ('{' :: k ++ '}' :: rest) none
        = scanGo m (k ++ '}' :: rest) (some []) := by simp [scanGo]
    rw [h1, scanGo_accum k hk]
    simp [scanGo, hm, Except.map]

theorem c5_witness :
    toFormatPieces (fun _ => none : FormatMap Nat) ['{', 'z', '}']
      = .error (.UnknownKey (r"z")) := by
  rw [show (r"z" : String) = String.mk ['z'] from rfl]
  exact (c5_unknown_key_iff Nat (fun _ => none) ['{', 'z', '}'] (String.mk ['z'])
    (by decide)).mpr
    ⟨[], [], ['z'], [], rfl, rfl, by decide, rfl, rfl⟩

end funcfmt

namespace funcfmt

/-- Claim C6: if a piece sequence is a prefix of `Some`-producing formatters
followed by a formatter whose callback yields `none`, rendering fails with the
no-data error for that formatter's key, whatever pieces follow. -/
theorem c6_first_nodata (T : Type) (d : T) (ps₁ : List (FormatPiece T)) (key : String)
    (cb : FormatterCallback T) (ps₂ : List (FormatPiece T))
    (h₁ : AllSome d ps₁) (hn : cb d = none)
    (hcap : (ps₁ ++ FormatPiece.Formatter key cb :: ps₂).length * 4 ≤ USIZE_MAX) :
    render (ps₁ ++ FormatPiece.Formatter key cb :: ps₂) d = .error (.NoData key) := by
  unfold render
  rw [show checkedMul (ps₁ ++ FormatPiece.Formatter key cb :: ps₂).length 4
      = some ((ps₁ ++ FormatPiece.Formatter key cb :: ps₂).length * 4) by
    unfold checkedMul; rw [if_pos hcap]]
  rw [renderGo_append ps₁ h₁ (FormatPiece.Formatter key cb :: ps₂) (r"")]
  show (match cb d with
    | some s => renderGo d ps₂ (String.mk ((r"" : String).data ++ piecesOut d ps₁) ++ s)
    | none => .error (.NoData key)) = .error (.NoData key)
  rw [hn]

theorem c6_witness :
    render [FormatPiece.Char 'a', FormatPiece.Formatter (r"n") (fun _ => none),
      FormatPiece.Char 'b'] (0 : Nat) = .error (.NoData (r"n")) := by
  have h := c6_first_nodata Nat 0 [FormatPiece.Char 'a'] (r"n") (fun _ => none)
    [FormatPiece.Char 'b']
    (by intro key cb hmem; simp at hmem) rfl (by decide)
  simpa using h

/-- Claim C7: a template that ends inside an open placeholder (after a cleanly
scanned prefix) still compiles successfully, and the unterminated part from
its opening brace onward contributes no pieces. -/
theorem c7_unterminated_dropped (T : Type) (m : FormatMap T) (pre k : List Char)
    (ps : List (FormatPiece T)) (hv : (pre ++ '{' :: k).length ≤ USIZE_MAX)
    (hk : NoBraces k) (hpre : scanGo m pre none = .ok (none, ps)) :
    toFormatPieces m (pre ++ '{' :: k) = .ok ps := by
  rw [toFormatPieces_ok_iff hv]
  refine ⟨some k, ?_⟩
  rw [scanGo_append pre none none ps ('{' :: k) hpre]
  have h1 : scanGo m ('{' :: k) none = scanGo m k (some []) := by simp [scanGo]
  have h2 : scanGo m (k ++ []) (some []) = scanGo m [] (some ([] ++ k)) := scanGo_accum k hk [] []
  simp only [List.append_nil, List.nil_append] at h2
  rw [h1, h2]
  simp [scanGo, Except.map]

theorem c7_witness :
    toFormatPieces (fun _ => none : FormatMap Nat) ['a', '{', 'k']
      = .ok [FormatPiece.Char 'a'] := by
  have h := c7_unterminated_dropped Nat (fun _ => none) ['a'] ['k'] [FormatPiece.Char 'a']
    (by decide) (by decide) (by rfl)
  simpa using h

/-- Claim C8: the index arithmetic of compilation and the capacity
multiplication of rendering are overflow-checked: when the checked operation
overflows the phase fails with the overflow error, and within `usize` bounds
neither phase ever reports overflow (no silent wrapping; totality of the
model rules out panics). -/
theorem c8_checked_arithmetic :
    (∀ (T : Type) (ps : List (FormatPiece T)) (d : T), USIZE_MAX < ps.length * 4 →
      render ps d = .error .Overflow) ∧
    (∀ (T : Type) (ps : List (FormatPiece T)) (d : T), ps.length * 4 ≤ USIZE_MAX →
      render ps d ≠ .error .Overflow) ∧
    (∀ (T : Type) (m : FormatMap T),
      toFormatPieces m (List.replicate USIZE_MAX 'a' ++ ['{']) = .error .Overflow) ∧
    (∀ (T : Type) (m : FormatMap T) (tmpl : List Char), tmpl.length ≤ USIZE_MAX →
      toFormatPieces m tmpl ≠ .error .Overflow) := by
  refine ⟨?_, ?_, ?_, ?_⟩
  · intro T ps d hlt
    unfold render
    rw [show checkedMul ps.length 4 = none by simp [checkedMul]; omega]
  · intro T ps d hle
    unfold render
    rw [show checkedMul ps.length 4 = some (ps.length * 4) by
      unfold checkedMul; rw [if_pos hle]]
    intro h
    obtain ⟨k, hk⟩ := renderGo_err_kinds ps (r"") .Overflow h
    cases hk
  · intro T m
    unfold toFormatPieces
    have h := fpGo_braceless (m := m) (v := List.replicate USIZE_MAX 'a' ++ ['{'])
      (List.replicate USIZE_MAX 'a')
      (by
        intro c hc
        rw [List.eq_of_mem_replicate hc]
        decide)
      ['{'] 0 []
    rw [h]
    exact fpGo_open_overflow (by simp [checkedAdd, List.length_replicate]) []
  · intro T m tmpl hv h
    rw [toFormatPieces_error_iff hv] at h
    rcases scanGo_err_kinds tmpl none .Overflow h with h1 | ⟨w, h1⟩ <;> cases h1

theorem c8_witness :
    render (List.replicate (2 ^ 62) (FormatPiece.Char 'a') : List (FormatPiece Nat)) 0
        = .error .Overflow ∧
      toFormatPieces (fun _ => none : FormatMap Nat) (List.replicate USIZE_MAX 'a' ++ ['{'])
        = .error .Overflow :=
  ⟨c8_checked_arithmetic.1 Nat (List.replicate (2 ^ 62) (FormatPiece.Char 'a')) 0
      (by rw [List.length_replicate]; decide),
   c8_checked_arithmetic.2.2.1 Nat (fun _ => none)⟩

/-- Claim C9: whenever compilation succeeds, the piece sequence is no longer
than the template's character count. -/
theorem c9_piece_count_le (T : Type) (m : FormatMap T) (tmpl : List Char)
    (ps : List (FormatPiece T)) (hv : tmpl.length ≤ USIZE_MAX)
    (hok : toFormatPieces m tmpl = .ok ps) : ps.length ≤ tmpl.length := by
  obtain ⟨md, hsc⟩ := (toFormatPieces_ok_iff hv).mp hok
  exact scanGo_length_le hsc

theorem c9_witness :
    toFormatPieces (fun _ => none : FormatMap Nat) ['{', '{']
        = .ok [FormatPiece.Char '{'] ∧
      ([FormatPiece.Char '{'] : List (FormatPiece Nat)).length ≤ (['{', '{'] : List Char).length :=
  ⟨rfl, c9_piece_count_le Nat (fun _ => none) ['{', '{'] [FormatPiece.Char '{']
    (by decide) rfl⟩

/-- Claim C10: an empty placeholder is a lookup of the empty-string key: when
the mapping lacks key `""` compilation fails with the unknown-key error
carrying `""`; when it has a callback for `""` the placeholder compiles to a
`Formatter` piece with key `""`. -/
theorem c10_empty_placeholder :
    (∀ (T : Type) (m : FormatMap T) (pre rest : List Char) (ps : List (FormatPiece T)),
      (pre ++ '{' :: '}' :: rest).length ≤ USIZE_MAX → m (r"") = none →
      scanGo m pre none = .ok (none, ps) →
      toFormatPieces m (pre ++ '{' :: '}' :: rest) = .error (.UnknownKey (r""))) ∧
    (∀ (T : Type) (m : FormatMap T) (f : FormatterCallback T) (pre rest : List Char)
      (ps ps₂ : List (FormatPiece T)) (md : Option (List Char)),
      (pre ++ '{' :: '}' :: rest).length ≤ USIZE_MAX → m (r"") = some f →
      scanGo m pre none = .ok (none, ps) → scanGo m rest none = .ok (md, ps₂) →
      toFormatPieces m (pre ++ '{' :: '}' :: rest)
        = .ok (ps ++ FormatPiece.Formatter (r"") f :: ps₂)) := by
  constructor
  · intro T m pre rest ps hv hm hpre
    rw [toFormatPieces_error_iff hv,
      scanGo_append pre none none ps ('{' :: '}' :: rest) hpre]
    have h1 : scanGo m ('{' :: '}' :: rest) none = scanGo m ('}' :: rest) (some []) := by
      simp [scanGo]
    rw [h1]
    have hm' : m (String.mk []) = none := hm
    simp [scanGo, hm', Except.map]
  · intro T m f pre rest ps ps₂ md hv hm hpre hrest
    rw [toFormatPieces_ok_iff hv]
    refine ⟨md, ?_⟩
    rw [scanGo_append pre none none ps ('{' :: '}' :: rest) hpre]
    have h1 : scanGo m ('{' :: '}' :: rest) none = scanGo m ('}' :: rest) (some []) := by
      simp [scanGo]
    rw [h1]
    have hm' : m (String.mk []) = some f := hm
    simp [scanGo, hm', hrest, Except.map]

theorem c10_witness :
    toFormatPieces (fun _ => none : FormatMap Nat) ['{', '}'] = .error (.UnknownKey (r"")) ∧
      toFormatPieces emptyKeyMap ['{', '}']
        = .ok [FormatPiece.Formatter (r"") (fun _ => some (r"E"))] := by
  constructor
  · exact c10_empty_placeholder.1 Nat (fun _ => none) [] [] [] (by decide) rfl rfl
  · have h := c10_empty_placeholder.2 Nat emptyKeyMap (fun _ => some (r"E")) [] [] [] [] none
      (by decide) rfl rfl rfl
    simpa using h

end funcfmt
